import Mathlib

/-!
Verification of the NERD CMS hook/plugin pipeline and host/guest bridge.

The development shallowly embeds:
* the plugin registry and hook waterfall of `src/src/worker.js`
  (`registerPlugin`, `unregisterPlugin`, `setPluginEnabled`, `addHook`,
  `executeHooks`, `executeHooksSync`);
* the C-string marshalling helpers `readCString` / `writeCString` of the
  worker bootloaders (`src/unnamed/part_001`, `src/unnamed/part_002`);
* the bump allocator `wasm_alloc` / `wasm_reset_heap` of `runtime_wasm.c`.

JavaScript `Map` objects are embedded as insertion-ordered association lists
(`mapGet` finds the first binding; keys are unique in every reachable state).
JavaScript handler functions are embedded as Lean functions returning a
`HandlerOutcome`: a defined value, `undefined`, or a thrown exception.
`executeHooks` is `async` in the source but awaits each handler in turn, so
its data flow is that of the synchronous variant; both are embedded as pure
sequential folds.  The source never mutates the registries inside
`executeHooks`/`executeHooksSync`, which the embedding reflects by giving
them a read-only registry argument.
-/

namespace NerdCMS

/-- Result of invoking a JS hook handler on a value: it can return a defined
value, return `undefined`, or throw. -/
inductive HandlerOutcome (α : Type) where
  | ret (v : α)
  | retUndefined
  | throws

/-- A JS handler function: the callable together with its optional `priority`
property (`handler.priority` may be absent, i.e. `undefined`). -/
structure Handler (α : Type) where
  fn : α → HandlerOutcome α
  priority : Option Int

/-- The priority stored by `addHook`: `handler.priority || 10`.  In JS both an
absent property and the number `0` are falsy, so both fall back to `10`. -/
def effPriority {α : Type} (h : Handler α) : Int :=
  match h.priority with
  | none => 10
  | some p => if p = 0 then 10 else p

/-- One element of a hook point's handler array:
`{ handler, plugin, priority }` as pushed by `addHook`. -/
structure HookEntry (α : Type) where
  handler : Handler α
  plugin : String
  priority : Int

/-- Plugin metadata stored by `registerPlugin`.  The live instance returned by
`plugin.init` is opaque to every claim, so it is embedded as `Option Unit`
(`none` = JS `null`); the field is named `inst` because `instance` is a Lean
keyword. -/
structure PluginData where
  name : String
  version : String
  description : String
  enabled : Bool
  config : List (String × String)
  inst : Option Unit

/-- `Map.get`: value of the first (in a real `Map`, the only) binding of `k`. -/
def mapGet {β : Type} : List (String × β) → String → Option β
  | [], _ => none
  | (k', v) :: rest, k => if k' = k then some v else mapGet rest k

/-- `Map.set`: replace the value of an existing binding in place, otherwise
append a new binding (JS `Map` preserves insertion order). -/
def mapSet {β : Type} : List (String × β) → String → β → List (String × β)
  | [], k, v => [(k, v)]
  | (k', v') :: rest, k, v =>
    if k' = k then (k', v) :: rest else (k', v') :: mapSet rest k v

/-- Mutation of the record returned by `Map.get`: update the first binding of
`k` by `f`, as JS does when the retrieved object is assigned to. -/
def mapUpdate {β : Type} : List (String × β) → String → (β → β) → List (String × β)
  | [], _, _ => []
  | (k', v) :: rest, k, f =>
    if k' = k then (k', f v) :: rest else (k', v) :: mapUpdate rest k f

/-- `Map.delete`: drop the binding of `k` (keys are unique in a JS `Map`, so
filtering all bindings of `k` removes exactly that entry). -/
def mapDelete {β : Type} (m : List (String × β)) (k : String) : List (String × β) :=
  m.filter (fun p => ¬ p.1 = k)

/-- The module-level state of `worker.js`: `const plugins = new Map()` and
`const hooks = new Map()`. -/
structure Registry (α : Type) where
  plugins : List (String × PluginData)
  hooks : List (String × List (HookEntry α))

/-- The registry at module load: both maps empty. -/
def initialRegistry {α : Type} : Registry α := ⟨[], []⟩

/-- Stable insertion of an entry into a priority-sorted array: the new entry
goes after every entry of lower-or-equal priority.  Inserting each pushed
element this way is exactly what the stable `Array.prototype.sort` with
comparator `(a, b) => a.priority - b.priority` produces. -/
def insertEntry {α : Type} (e : HookEntry α) : List (HookEntry α) → List (HookEntry α)
  | [] => [e]
  | x :: xs => if x.priority ≤ e.priority then x :: insertEntry e xs else e :: x :: xs

/-- The stable ascending-priority sort used by `addHook`
(`hooks.get(hookName).sort((a, b) => a.priority - b.priority)`, stable per
ES2019): fold the array left to right, placing each element after its
equal-priority predecessors. -/
def sortEntries {α : Type} (l : List (HookEntry α)) : List (HookEntry α) :=
  l.foldl (fun acc e => insertEntry e acc) []

/-- `addHook(hookName, handler, pluginName = 'anonymous')`: ensure the hook
point's array exists, push `{handler, plugin, priority: handler.priority || 10}`
and re-sort the array by ascending priority (stable). -/
def addHook {α : Type} (st : Registry α) (hookName : String) (h : Handler α)
    (pluginName : String) : Registry α :=
  let cur := (mapGet st.hooks hookName).getD []
  { st with
    hooks := mapSet st.hooks hookName
      (sortEntries (cur ++ [⟨h, pluginName, effPriority h⟩])) }

/-- The skip test of `executeHooks`: `pluginData && !pluginData.enabled` —
an entry is skipped exactly when a plugin record with its owner name exists
and is disabled. -/
def skipB {α : Type} (P : List (String × PluginData)) (e : HookEntry α) : Bool :=
  match mapGet P e.plugin with
  | some pd => !pd.enabled
  | none => false

/-- The waterfall step: `if (handlerResult !== undefined) result = handlerResult`,
with a thrown exception caught and logged, leaving `result` unchanged. -/
def applyOutcome {α : Type} (d : α) : HandlerOutcome α → α
  | .ret v => v
  | .retUndefined => d
  | .throws => d

/-- The body of the `for (const { handler, plugin } of hooks.get(hookName))`
loop shared by `executeHooks` and `executeHooksSync`. -/
def runEntries {α : Type} (P : List (String × PluginData)) :
    List (HookEntry α) → α → α
  | [], d => d
  | e :: es, d =>
    if skipB P e then runEntries P es d
    else runEntries P es (applyOutcome d (e.handler.fn d))

/-- Instrumented variant of `runEntries` that also records, in order, the
entries whose handlers were actually invoked (skipped entries are absent;
throwing handlers were still invoked, so they are present). -/
def runEntriesT {α : Type} (P : List (String × PluginData)) :
    List (HookEntry α) → α → α × List (HookEntry α)
  | [], d => (d, [])
  | e :: es, d =>
    if skipB P e then runEntriesT P es d
    else
      let r := runEntriesT P es (applyOutcome d (e.handler.fn d))
      (r.1, e :: r.2)

/-- `executeHooks(hookName, data)`: return `data` unchanged if the hook point
has no array, otherwise run the waterfall over its entries. -/
def executeHooks {α : Type} (st : Registry α) (hookName : String) (data : α) : α :=
  match mapGet st.hooks hookName with
  | none => data
  | some es => runEntries st.plugins es data

/-- `executeHooksSync(hookName, data)`: identical loop without `await`. -/
def executeHooksSync {α : Type} (st : Registry α) (hookName : String) (data : α) : α :=
  match mapGet st.hooks hookName with
  | none => data
  | some es => runEntries st.plugins es data

/-- Instrumented `executeHooks` returning the final value and the ordered
list of invoked entries. -/
def executeHooksT {α : Type} (st : Registry α) (hookName : String) (data : α) :
    α × List (HookEntry α) :=
  match mapGet st.hooks hookName with
  | none => (data, [])
  | some es => runEntriesT st.plugins es data

/-- `setPluginEnabled(name, enabled)`: flip the `enabled` flag of the stored
plugin record and return `true`; return `false` for an unknown name. -/
def setPluginEnabled {α : Type} (st : Registry α) (name : String) (enabled : Bool) :
    Registry α × Bool :=
  match mapGet st.plugins name with
  | some _ =>
    ({ st with plugins := mapUpdate st.plugins name (fun pd => { pd with enabled := enabled }) },
     true)
  | none => (st, false)

/-- `unregisterPlugin(name)`: for a registered name, filter that plugin's
entries out of every hook point's array and delete its metadata, returning
`true`; otherwise return `false` without mutation. -/
def unregisterPlugin {α : Type} (st : Registry α) (name : String) :
    Registry α × Bool :=
  match mapGet st.plugins name with
  | some _ =>
    ({ plugins := mapDelete st.plugins name,
       hooks := st.hooks.map (fun p => (p.1, p.2.filter (fun e => ¬ e.plugin = name))) },
     true)
  | none => (st, false)

/-- A plugin descriptor as passed to `registerPlugin`.  A missing (JS
`undefined`) or empty `name` is falsy; both are embedded as `""`.  `hooks`
lists the `Object.entries` of the descriptor's hook mapping in insertion
order.  `init` is the optional initialization thunk, which may throw; the
capability object it receives and its return value are opaque to every claim,
so the thunk is embedded as `Except Unit Unit`. -/
structure PluginDesc (α : Type) where
  name : String
  version : Option String
  description : Option String
  config : Option (List (String × String))
  hooks : List (String × Handler α)
  init : Option (Except Unit Unit)

/-- `registerPlugin(plugin)`: throw (`.error`) if the name is falsy; return
`false` if the name is already registered; otherwise store metadata with
`enabled = true`, register every hook pair via `addHook`, run `init` inside
`try`/`catch` (storing its instance on success, leaving `null` on throw) and
return `true`.  The returned registry is the post-call module state; a thrown
error leaves the maps untouched. -/
def registerPlugin {α : Type} (st : Registry α) (p : PluginDesc α) :
    Registry α × Except String Bool :=
  if p.name = "" then (st, .error "Plugin must have a name")
  else if (mapGet st.plugins p.name).isSome then (st, .ok false)
  else
    let pd : PluginData :=
      { name := p.name
        version := p.version.getD "1.0.0"
        description := p.description.getD ""
        enabled := true
        config := p.config.getD []
        inst := none }
    let st1 : Registry α := { st with plugins := mapSet st.plugins p.name pd }
    let st2 := p.hooks.foldl (fun s hk => addHook s hk.1 hk.2 p.name) st1
    let st3 : Registry α :=
      match p.init with
      | none => st2
      | some (.ok _) =>
        { st2 with plugins := mapUpdate st2.plugins p.name (fun q => { q with inst := some () }) }
      | some (.error _) => st2
    (st3, .ok true)

/-- UTF-8 byte encoding of one Unicode scalar value (1 to 4 bytes), as
produced by JS `TextEncoder` for each character of a string. -/
def utf8EncodeChar (c : Nat) : List Nat :=
  if c < 0x80 then [c]
  else if c < 0x800 then [0xC0 + c / 64, 0x80 + c % 64]
  else if c < 0x10000 then [0xE0 + c / 4096, 0x80 + c / 64 % 64, 0x80 + c % 64]
  else [0xF0 + c / 262144, 0x80 + c / 4096 % 64, 0x80 + c / 64 % 64, 0x80 + c % 64]

/-- `new TextEncoder().encode(str)`: the concatenated UTF-8 bytes of the
string's characters. -/
def utf8Encode (s : List Char) : List Nat :=
  (s.map (fun c => utf8EncodeChar c.toNat)).flatten

/-- The replacement character U+FFFD that `TextDecoder` substitutes for
malformed input (decoding fails closed, never raising). -/
def replChar : Char := Char.ofNat 0xFFFD

/-- Decoding of the first UTF-8 code point of `b :: bs`: the decoded
character and the number of continuation bytes consumed from `bs`.  A valid
1-4 byte sequence yields its scalar value; a malformed sequence (stray
continuation byte, missing continuation bytes, overlong form, surrogate, or
out-of-range value) yields U+FFFD, consuming no continuation bytes. -/
def utf8DecodeOne (b : Nat) (bs : List Nat) : Char × Nat :=
  if b < 0x80 then (Char.ofNat b, 0)
  else if b < 0xC0 then (replChar, 0)
  else if b < 0xE0 then
    match bs with
    | b1 :: _ =>
      if 0x80 ≤ b1 ∧ b1 < 0xC0 then
        (if (b - 0xC0) * 64 + (b1 - 0x80) < 0x80 then replChar
         else Char.ofNat ((b - 0xC0) * 64 + (b1 - 0x80)), 1)
      else (replChar, 0)
    | [] => (replChar, 0)
  else if b < 0xF0 then
    match bs with
    | b1 :: b2 :: _ =>
      if (0x80 ≤ b1 ∧ b1 < 0xC0) ∧ (0x80 ≤ b2 ∧ b2 < 0xC0) then
        (if (b - 0xE0) * 4096 + (b1 - 0x80) * 64 + (b2 - 0x80) < 0x800 ∨
            (0xD800 ≤ (b - 0xE0) * 4096 + (b1 - 0x80) * 64 + (b2 - 0x80) ∧
              (b - 0xE0) * 4096 + (b1 - 0x80) * 64 + (b2 - 0x80) < 0xE000) then replChar
         else Char.ofNat ((b - 0xE0) * 4096 + (b1 - 0x80) * 64 + (b2 - 0x80)), 2)
      else (replChar, 0)
    | _ => (replChar, 0)
  else if b < 0xF8 then
    match bs with
    | b1 :: b2 :: b3 :: _ =>
      if (0x80 ≤ b1 ∧ b1 < 0xC0) ∧ (0x80 ≤ b2 ∧ b2 < 0xC0) ∧ (0x80 ≤ b3 ∧ b3 < 0xC0) then
        (if (b - 0xF0) * 262144 + (b1 - 0x80) * 4096 + (b2 - 0x80) * 64 + (b3 - 0x80) < 0x10000 ∨
            0x110000 ≤ (b - 0xF0) * 262144 + (b1 - 0x80) * 4096 + (b2 - 0x80) * 64 + (b3 - 0x80)
         then replChar
         else Char.ofNat
            ((b - 0xF0) * 262144 + (b1 - 0x80) * 4096 + (b2 - 0x80) * 64 + (b3 - 0x80)), 3)
      else (replChar, 0)
    | _ => (replChar, 0)
  else (replChar, 0)

/-- UTF-8 decoding of a byte list, one code point at a time, modelling
`new TextDecoder().decode(bytes)`: valid input decodes exactly as
`TextDecoder` does; malformed sequences fail closed to U+FFFD (the
resynchronisation point on malformed input may differ from WHATWG's, which
no theorem below depends on). -/
def utf8Decode : List Nat → List Char
  | [] => []
  | b :: bs =>
    (utf8DecodeOne b bs).1 :: utf8Decode (bs.drop (utf8DecodeOne b bs).2)
termination_by l => l.length
decreasing_by
  simp only [List.length_cons, List.length_drop]
  omega

/-- A JS typed-array store `bytes[i] = v` with a possibly negative index:
out-of-bounds stores on a `Uint8Array` are silently dropped (`List.set`
already ignores indices beyond the end). -/
def setByteI (mem : List Nat) (i : Int) (v : Nat) : List Nat :=
  if 0 ≤ i then mem.set i.toNat v else mem

/-- The loop `for (let i = 0; i < len; i++) bytes[ptr + i] = encoded[i]` of
`writeCString`, writing a byte list at ascending indices. -/
def writeBytes (mem : List Nat) (ptr : Nat) : List Nat → List Nat
  | [] => mem
  | b :: bs => writeBytes (mem.set ptr b) (ptr + 1) bs

/-- `writeCString(memory, ptr, str, maxLen)`: UTF-8-encode `str`, let
`len = Math.min(encoded.length, maxLen - 1)` (computed in exact integer
arithmetic, so `-1` when `maxLen = 0`), copy the first `len` bytes to
`ptr`, store a zero at `ptr + len`, and return `len`.  Returns the new
memory and the returned length. -/
def writeCString (mem : List Nat) (ptr : Nat) (s : List Char) (maxLen : Nat) :
    List Nat × Int :=
  let encoded := utf8Encode s
  let len : Int := min (encoded.length : Int) ((maxLen : Int) - 1)
  let m1 := writeBytes mem ptr (encoded.take len.toNat)
  (setByteI m1 ((ptr : Int) + len) 0, len)

/-- The scan `while (bytes[end] !== 0 && end < bytes.length) end++` of
`readCString`: the bytes before the first zero (or the whole list). -/
def takeUntilZero : List Nat → List Nat
  | [] => []
  | b :: bs => if b = 0 then [] else b :: takeUntilZero bs

/-- `readCString(memory, ptr)`: scan forward from `ptr` until a zero byte or
the end of memory and UTF-8-decode the scanned bytes. -/
def readCString (mem : List Nat) (ptr : Nat) : List Char :=
  utf8Decode (takeUntilZero (mem.drop ptr))

/-- `static char heap[131072]` of `runtime_wasm.c`: the heap capacity. -/
def HEAP_SIZE : Int := 131072

/-- `static int heap_offset = 0`: the allocation cursor's initial value. -/
def heap_offset_init : Int := 0

/-- Reduction of exact integer arithmetic to a signed 32-bit value, as the
wasm target computes the `int` sum `heap_offset + size`. -/
def wrap32 (x : Int) : Int := (x + 2 ^ 31) % 2 ^ 32 - 2 ^ 31

/-- `wasm_alloc(size)`: the bump allocator of `runtime_wasm.c`.  The state is
the `heap_offset` cursor; the result is the new cursor paired with
`some offset` for the returned pointer `&heap[offset]`, or `none` for the
null pointer when `heap_offset + size > sizeof(heap)`. -/
def wasm_alloc (off : Int) (size : Int) : Int × Option Int :=
  if wrap32 (off + size) > HEAP_SIZE then (off, none)
  else (wrap32 (off + size), some off)

/-- `wasm_reset_heap()`: sets `heap_offset = 0` whatever its value was. -/
def wasm_reset_heap (_ : Int) : Int := 0

/-- Run a sequence of `wasm_alloc` calls with the given sizes, returning the
final cursor and the list of per-call results. -/
def allocRun (off : Int) : List Int → Int × List (Option Int)
  | [] => (off, [])
  | sz :: szs =>
    let r := wasm_alloc off sz
    let rest := allocRun r.1 szs
    (rest.1, r.2 :: rest.2)

/-- One recorded `addHook(hook, handler, plugin)` call. -/
structure AddCall (α : Type) where
  hook : String
  handler : Handler α
  plugin : String

/-- Perform a sequence of `addHook` calls. -/
def applyAdds {α : Type} (st : Registry α) (adds : List (AddCall α)) : Registry α :=
  adds.foldl (fun s a => addHook s a.hook a.handler a.plugin) st

/-- The entries a sequence of `addHook` calls contributes to hook point `h`,
in registration order. -/
def regEntries {α : Type} (h : String) (adds : List (AddCall α)) : List (HookEntry α) :=
  (adds.filter (fun a => a.hook = h)).map
    (fun a => ⟨a.handler, a.plugin, effPriority a.handler⟩)

/-- The entry array currently stored for hook point `h` (empty when absent). -/
def hookEntries {α : Type} (st : Registry α) (h : String) : List (HookEntry α) :=
  (mapGet st.hooks h).getD []

/-- The pure waterfall over a list of handler functions: each step feeds the
accumulated value to the next handler. -/
def waterfall {α : Type} (fs : List (α → HandlerOutcome α)) (d : α) : α :=
  fs.foldl (fun x f => applyOutcome x (f x)) d

/-- Ascending-priority order on entry lists. -/
def EntriesSorted {α : Type} (l : List (HookEntry α)) : Prop :=
  l.Pairwise (fun a b => a.priority ≤ b.priority)

/-- The same hook entry with its callable replaced by a pass-through handler
(one that always returns `undefined`); owner and priority are kept. -/
def passEntry {α : Type} (e : HookEntry α) : HookEntry α :=
  ⟨⟨fun _ => .retUndefined, e.handler.priority⟩, e.plugin, e.priority⟩

section MapLemmas

variable {β : Type}

theorem mapGet_nil (k : String) : mapGet ([] : List (String × β)) k = none := rfl

theorem mapGet_cons (ka : String) (va : β) (rest : List (String × β)) (k : String) :
    mapGet ((ka, va) :: rest) k = if ka = k then some va else mapGet rest k := rfl

theorem mapSet_cons (ka : String) (va : β) (rest : List (String × β)) (k : String) (v : β) :
    mapSet ((ka, va) :: rest) k v =
      if ka = k then (ka, v) :: rest else (ka, va) :: mapSet rest k v := rfl

theorem mapUpdate_cons (ka : String) (va : β) (rest : List (String × β)) (k : String)
    (f : β → β) :
    mapUpdate ((ka, va) :: rest) k f =
      if ka = k then (ka, f va) :: rest else (ka, va) :: mapUpdate rest k f := rfl

theorem mapDelete_cons (ka : String) (va : β) (rest : List (String × β)) (k : String) :
    mapDelete ((ka, va) :: rest) k =
      if ka = k then mapDelete rest k else (ka, va) :: mapDelete rest k := by
  by_cases h : ka = k <;> simp [mapDelete, List.filter_cons, h]

theorem mapGet_mapSet (m : List (String × β)) (k k' : String) (v : β) :
    mapGet (mapSet m k v) k' = if k = k' then some v else mapGet m k' := by
  induction m with
  | nil => by_cases h : k = k' <;> simp [mapSet, mapGet_cons, mapGet_nil, h]
  | cons a rest ih =>
    obtain ⟨ka, va⟩ := a
    rw [mapSet_cons]
    by_cases hak : ka = k
    · subst hak
      rw [if_pos rfl]
      by_cases hk' : ka = k' <;> simp [mapGet_cons, hk']
    · rw [if_neg hak]
      by_cases hk' : ka = k'
      · have hkk' : ¬ k = k' := fun h => hak (h ▸ hk')
        simp [mapGet_cons, hk', hkk']
      · simp [mapGet_cons, hk', hak, ih]

theorem mapGet_mapUpdate (m : List (String × β)) (k k' : String) (f : β → β) :
    mapGet (mapUpdate m k f) k' =
      if k = k' then (mapGet m k).map f else mapGet m k' := by
  induction m with
  | nil => by_cases h : k = k' <;> simp [mapUpdate, mapGet_nil, h]
  | cons a rest ih =>
    obtain ⟨ka, va⟩ := a
    rw [mapUpdate_cons]
    by_cases hak : ka = k
    · subst hak
      rw [if_pos rfl]
      by_cases hk' : ka = k' <;> simp [mapGet_cons, hk']
    · rw [if_neg hak]
      by_cases hk' : ka = k'
      · have hkk' : ¬ k = k' := fun h => hak (h ▸ hk')
        simp [mapGet_cons, hk', hkk', hak]
      · simp [mapGet_cons, hk', hak, ih]

theorem mapGet_mapDelete (m : List (String × β)) (k k' : String) :
    mapGet (mapDelete m k) k' = if k = k' then none else mapGet m k' := by
  induction m with
  | nil =>
    simp only [mapDelete, List.filter_nil, mapGet_nil]
    by_cases h : k = k' <;> simp [h]
  | cons a rest ih =>
    obtain ⟨ka, va⟩ := a
    rw [mapDelete_cons]
    by_cases hak : ka = k
    · subst hak
      rw [if_pos rfl, ih, mapGet_cons]
      by_cases hk' : ka = k' <;> simp [hk']
    · rw [if_neg hak, mapGet_cons, ih, mapGet_cons]
      by_cases hk' : ka = k'
      · have hkk' : ¬ k = k' := fun h => hak (h ▸ hk')
        simp [hk', hkk']
      · simp [hk']

theorem mapGet_mapUpdate_cancel (m : List (String × β)) (k : String) (f g : β → β)
    (v : β) (hv : mapGet m k = some v) (hfg : f (g v) = v) :
    mapUpdate (mapUpdate m k g) k f = m := by
  induction m with
  | nil => simp [mapGet_nil] at hv
  | cons a rest ih =>
    obtain ⟨ka, va⟩ := a
    by_cases hak : ka = k
    · subst hak
      rw [mapGet_cons, if_pos rfl] at hv
      have hva : va = v := Option.some.injEq _ _ ▸ hv
      subst hva
      rw [mapUpdate_cons, if_pos rfl, mapUpdate_cons, if_pos rfl, hfg]
    · rw [mapGet_cons, if_neg hak] at hv
      rw [mapUpdate_cons, if_neg hak, mapUpdate_cons, if_neg hak, ih hv]

theorem mapGet_valuesMap (m : List (String × β)) (k : String) (f : β → β) :
    mapGet (m.map (fun p => (p.1, f p.2))) k = (mapGet m k).map f := by
  induction m with
  | nil => simp [mapGet_nil]
  | cons a rest ih =>
    obtain ⟨ka, va⟩ := a
    by_cases hk : ka = k <;> simp [mapGet_cons, hk, ih]

end MapLemmas

section SortLemmas

variable {α : Type}

theorem entriesSorted_nil : EntriesSorted ([] : List (HookEntry α)) := List.Pairwise.nil

theorem entriesSorted_cons {x : HookEntry α} {xs : List (HookEntry α)} :
    EntriesSorted (x :: xs) ↔
      (∀ y ∈ xs, x.priority ≤ y.priority) ∧ EntriesSorted xs :=
  List.pairwise_cons

theorem insertEntry_nil (e : HookEntry α) : insertEntry e [] = [e] := rfl

theorem insertEntry_cons (e x : HookEntry α) (xs : List (HookEntry α)) :
    insertEntry e (x :: xs) =
      if x.priority ≤ e.priority then x :: insertEntry e xs else e :: x :: xs := rfl

theorem insertEntry_perm (e : HookEntry α) (l : List (HookEntry α)) :
    List.Perm (insertEntry e l) (e :: l) := by
  induction l with
  | nil => simp [insertEntry_nil]
  | cons x xs ih =>
    rw [insertEntry_cons]
    by_cases h : x.priority ≤ e.priority
    · rw [if_pos h]
      exact (ih.cons x).trans (List.Perm.swap e x xs)
    · rw [if_neg h]

theorem mem_insertEntry {e y : HookEntry α} {l : List (HookEntry α)} :
    y ∈ insertEntry e l ↔ y = e ∨ y ∈ l := by
  rw [(insertEntry_perm e l).mem_iff]
  simp

theorem insertEntry_sorted (e : HookEntry α) {l : List (HookEntry α)}
    (hl : EntriesSorted l) : EntriesSorted (insertEntry e l) := by
  induction l with
  | nil =>
    rw [insertEntry_nil, EntriesSorted]
    simp
  | cons x xs ih =>
    obtain ⟨hx, hxs⟩ := entriesSorted_cons.mp hl
    rw [insertEntry_cons]
    by_cases h : x.priority ≤ e.priority
    · rw [if_pos h, entriesSorted_cons]
      refine ⟨?_, ih hxs⟩
      intro y hy
      rcases mem_insertEntry.mp hy with rfl | hy'
      · exact h
      · exact hx y hy'
    · rw [if_neg h, entriesSorted_cons]
      refine ⟨?_, entriesSorted_cons.mpr ⟨hx, hxs⟩⟩
      intro y hy
      rcases List.mem_cons.mp hy with rfl | hy'
      · omega
      · have := hx y hy'
        omega

theorem insertEntry_append (e : HookEntry α) {l : List (HookEntry α)}
    (h : ∀ x ∈ l, x.priority ≤ e.priority) : insertEntry e l = l ++ [e] := by
  induction l with
  | nil => simp [insertEntry_nil]
  | cons x xs ih =>
    have hx : x.priority ≤ e.priority := h x (by simp)
    rw [insertEntry_cons, if_pos hx, List.cons_append]
    rw [ih (fun y hy => h y (by simp [hy]))]

theorem insertEntry_filter (e : HookEntry α) {l : List (HookEntry α)}
    (hl : EntriesSorted l) (p : Int) :
    (insertEntry e l).filter (fun x => x.priority == p) =
      if e.priority = p then l.filter (fun x => x.priority == p) ++ [e]
      else l.filter (fun x => x.priority == p) := by
  induction l with
  | nil =>
    rw [insertEntry_nil]
    by_cases hep : e.priority = p
    · rw [if_pos hep, List.filter_cons_of_pos (by simp [hep]), List.filter_nil]
      simp
    · rw [if_neg hep, List.filter_cons_of_neg (by simp [hep]), List.filter_nil]
  | cons x xs ih =>
    obtain ⟨hx, hxs⟩ := entriesSorted_cons.mp hl
    rw [insertEntry_cons]
    by_cases h : x.priority ≤ e.priority
    · rw [if_pos h]
      by_cases hxp : x.priority = p
      · rw [List.filter_cons_of_pos (by simp [hxp]), ih hxs,
            List.filter_cons_of_pos (by simp [hxp])]
        by_cases hep : e.priority = p <;> simp [hep]
      · rw [List.filter_cons_of_neg (by simp [hxp]), ih hxs,
            List.filter_cons_of_neg (by simp [hxp])]
    · rw [if_neg h]
      by_cases hep : e.priority = p
      · have hfe : ∀ y ∈ x :: xs, (y.priority == p) = false := by
          intro y hy
          rcases List.mem_cons.mp hy with rfl | hy'
          · exact beq_eq_false_iff_ne.mpr (by omega)
          · have := hx y hy'
            exact beq_eq_false_iff_ne.mpr (by omega)
        rw [if_pos hep, List.filter_cons_of_pos (by simp [hep]),
            List.filter_eq_nil_iff.mpr (fun a ha => by simp [hfe a ha])]
        simp
      · rw [if_neg hep, List.filter_cons_of_neg (by simp [hep])]

theorem foldl_insert_sorted {acc : List (HookEntry α)} (l : List (HookEntry α))
    (hacc : EntriesSorted acc) :
    EntriesSorted (l.foldl (fun acc e => insertEntry e acc) acc) := by
  induction l generalizing acc with
  | nil => exact hacc
  | cons e l ih => exact ih (insertEntry_sorted e hacc)

theorem foldl_insert_filter {acc : List (HookEntry α)} (l : List (HookEntry α))
    (hacc : EntriesSorted acc) (p : Int) :
    (l.foldl (fun acc e => insertEntry e acc) acc).filter (fun x => x.priority == p) =
      acc.filter (fun x => x.priority == p) ++ l.filter (fun x => x.priority == p) := by
  induction l generalizing acc with
  | nil => simp
  | cons e l ih =>
    rw [List.foldl_cons, ih (insertEntry_sorted e hacc), insertEntry_filter e hacc]
    by_cases hep : e.priority = p
    · rw [if_pos hep, List.filter_cons_of_pos (by simp [hep]), List.append_assoc]
      simp
    · rw [if_neg hep, List.filter_cons_of_neg (by simp [hep])]

theorem foldl_insert_perm (acc : List (HookEntry α)) (l : List (HookEntry α)) :
    List.Perm (l.foldl (fun acc e => insertEntry e acc) acc) (acc ++ l) := by
  induction l generalizing acc with
  | nil => simp
  | cons e l ih =>
    rw [List.foldl_cons]
    refine (ih (insertEntry e acc)).trans ?_
    have h1 : List.Perm (insertEntry e acc ++ l) ((e :: acc) ++ l) :=
      (insertEntry_perm e acc).append_right l
    refine h1.trans ?_
    rw [List.cons_append]
    exact List.perm_middle.symm

theorem foldl_insert_of_sorted (acc : List (HookEntry α)) (l : List (HookEntry α))
    (h : EntriesSorted (acc ++ l)) :
    l.foldl (fun acc e => insertEntry e acc) acc = acc ++ l := by
  induction l generalizing acc with
  | nil => simp
  | cons e l ih =>
    rw [List.foldl_cons]
    have hacc : ∀ x ∈ acc, x.priority ≤ e.priority := by
      intro x hx
      have := (List.pairwise_append.mp h).2.2 x hx e (by simp)
      exact this
    rw [insertEntry_append e hacc]
    have h' : EntriesSorted ((acc ++ [e]) ++ l) := by
      rw [List.append_assoc]
      exact h
    rw [ih (acc ++ [e]) h', List.append_assoc]
    simp

theorem sortEntries_sorted (l : List (HookEntry α)) : EntriesSorted (sortEntries l) :=
  foldl_insert_sorted l entriesSorted_nil

theorem sortEntries_filter (l : List (HookEntry α)) (p : Int) :
    (sortEntries l).filter (fun x => x.priority == p) =
      l.filter (fun x => x.priority == p) := by
  rw [sortEntries, foldl_insert_filter l entriesSorted_nil p, List.filter_nil,
      List.nil_append]

theorem sortEntries_perm (l : List (HookEntry α)) : List.Perm (sortEntries l) l := by
  simpa using foldl_insert_perm ([] : List (HookEntry α)) l

theorem sortEntries_of_sorted {l : List (HookEntry α)} (h : EntriesSorted l) :
    sortEntries l = l := by
  have := foldl_insert_of_sorted ([] : List (HookEntry α)) l (by simpa using h)
  simpa [sortEntries] using this

theorem sortEntries_append_one (l : List (HookEntry α)) (e : HookEntry α) :
    sortEntries (l ++ [e]) = insertEntry e (sortEntries l) := by
  rw [sortEntries, sortEntries, List.foldl_append, List.foldl_cons, List.foldl_nil]

end SortLemmas

section HookLemmas

variable {α : Type}

theorem hookEntries_addHook_same (st : Registry α) (h : String) (hd : Handler α)
    (pl : String) :
    hookEntries (addHook st h hd pl) h =
      sortEntries (hookEntries st h ++ [⟨hd, pl, effPriority hd⟩]) := by
  simp [hookEntries, addHook, mapGet_mapSet]

theorem hookEntries_addHook_other (st : Registry α) (h h' : String) (hd : Handler α)
    (pl : String) (hne : ¬ h = h') :
    hookEntries (addHook st h hd pl) h' = hookEntries st h' := by
  simp [hookEntries, addHook, mapGet_mapSet, hne]

theorem plugins_addHook (st : Registry α) (h : String) (hd : Handler α) (pl : String) :
    (addHook st h hd pl).plugins = st.plugins := rfl

theorem plugins_applyAdds (st : Registry α) (adds : List (AddCall α)) :
    (applyAdds st adds).plugins = st.plugins := by
  induction adds generalizing st with
  | nil => rfl
  | cons a adds ih => exact ih (addHook st a.hook a.handler a.plugin)

theorem regEntries_cons (h : String) (a : AddCall α) (adds : List (AddCall α)) :
    regEntries h (a :: adds) =
      if a.hook = h then (⟨a.handler, a.plugin, effPriority a.handler⟩ : HookEntry α)
          :: regEntries h adds
      else regEntries h adds := by
  by_cases hh : a.hook = h
  · rw [if_pos hh, regEntries, List.filter_cons_of_pos (by simp [hh]), List.map_cons]
    rfl
  · rw [if_neg hh, regEntries, List.filter_cons_of_neg (by simp [hh])]
    rfl

theorem applyAdds_hookEntries (adds : List (AddCall α)) (st : Registry α) (h : String)
    (hst : EntriesSorted (hookEntries st h)) :
    hookEntries (applyAdds st adds) h =
      (regEntries h adds).foldl (fun acc e => insertEntry e acc) (hookEntries st h) := by
  induction adds generalizing st with
  | nil => rfl
  | cons a adds ih =>
    have hstep : applyAdds st (a :: adds) = applyAdds (addHook st a.hook a.handler a.plugin) adds :=
      rfl
    rw [hstep, regEntries_cons]
    by_cases hh : a.hook = h
    · subst hh
      have h1 : hookEntries (addHook st a.hook a.handler a.plugin) a.hook =
          insertEntry ⟨a.handler, a.plugin, effPriority a.handler⟩ (hookEntries st a.hook) := by
        rw [hookEntries_addHook_same, sortEntries_append_one, sortEntries_of_sorted hst]
      rw [if_pos rfl, ih _ (by rw [h1]; exact insertEntry_sorted _ hst), h1, List.foldl_cons]
    · rw [if_neg hh, ih _ (by rw [hookEntries_addHook_other st a.hook h _ _ hh]; exact hst),
          hookEntries_addHook_other st a.hook h _ _ hh]

theorem hookEntries_initial (h : String) :
    hookEntries (initialRegistry : Registry α) h = [] := rfl

theorem applyAdds_initial (adds : List (AddCall α)) (h : String) :
    hookEntries (applyAdds (initialRegistry : Registry α) adds) h =
      sortEntries (regEntries h adds) := by
  rw [applyAdds_hookEntries adds initialRegistry h
        (by rw [hookEntries_initial]; exact entriesSorted_nil),
      hookEntries_initial]
  rfl

end HookLemmas

section RunLemmas

variable {α : Type}

theorem runEntries_nil (P : List (String × PluginData)) (d : α) :
    runEntries P [] d = d := rfl

theorem runEntries_cons (P : List (String × PluginData)) (e : HookEntry α)
    (es : List (HookEntry α)) (d : α) :
    runEntries P (e :: es) d =
      if skipB P e then runEntries P es d
      else runEntries P es (applyOutcome d (e.handler.fn d)) := rfl

theorem runEntriesT_nil (P : List (String × PluginData)) (d : α) :
    runEntriesT P [] d = (d, []) := rfl

theorem runEntriesT_cons (P : List (String × PluginData)) (e : HookEntry α)
    (es : List (HookEntry α)) (d : α) :
    runEntriesT P (e :: es) d =
      if skipB P e then runEntriesT P es d
      else
        ((runEntriesT P es (applyOutcome d (e.handler.fn d))).1,
          e :: (runEntriesT P es (applyOutcome d (e.handler.fn d))).2) := by
  by_cases h : skipB P e <;> simp [runEntriesT, h]

theorem runEntriesT_spec (P : List (String × PluginData)) (es : List (HookEntry α))
    (d : α) :
    runEntriesT P es d = (runEntries P es d, es.filter (fun e => !(skipB P e))) := by
  induction es generalizing d with
  | nil => rfl
  | cons e es ih =>
    rw [runEntriesT_cons, runEntries_cons]
    by_cases h : skipB P e
    · rw [if_pos h, if_pos h, ih, List.filter_cons_of_neg (by simp [h])]
    · rw [if_neg h, if_neg h, ih, List.filter_cons_of_pos (by simp [h])]

theorem runEntries_eq_waterfall (P : List (String × PluginData))
    (es : List (HookEntry α)) (d : α) :
    runEntries P es d =
      waterfall ((es.filter (fun e => !(skipB P e))).map (fun e => e.handler.fn)) d := by
  induction es generalizing d with
  | nil => rfl
  | cons e es ih =>
    rw [runEntries_cons]
    by_cases h : skipB P e
    · rw [if_pos h, List.filter_cons_of_neg (by simp [h]), ih]
    · rw [if_neg h, List.filter_cons_of_pos (by simp [h]), List.map_cons, ih]
      rfl

theorem executeHooks_eq_run (st : Registry α) (h : String) (d : α) :
    executeHooks st h d = runEntries st.plugins (hookEntries st h) d := by
  rw [executeHooks, hookEntries]
  cases mapGet st.hooks h <;> rfl

theorem executeHooksSync_eq (st : Registry α) (h : String) (d : α) :
    executeHooksSync st h d = executeHooks st h d := rfl

theorem executeHooksT_spec (st : Registry α) (h : String) (d : α) :
    executeHooksT st h d =
      (executeHooks st h d,
        (hookEntries st h).filter (fun e => !(skipB st.plugins e))) := by
  rw [executeHooksT, executeHooks, hookEntries]
  rcases mapGet st.hooks h with _ | es
  · rfl
  · exact runEntriesT_spec st.plugins es d

theorem skipB_of_none {P : List (String × PluginData)} {e : HookEntry α}
    (h : mapGet P e.plugin = none) : skipB P e = false := by
  rw [skipB, h]

theorem entries_strict_of_nodup {l : List (HookEntry α)} (hs : EntriesSorted l)
    (hd : (l.map (fun e => e.priority)).Nodup) :
    l.Pairwise (fun a b => a.priority < b.priority) := by
  have hne : l.Pairwise (fun a b => a.priority ≠ b.priority) :=
    (List.pairwise_map.mp hd)
  exact (hs.and hne).imp (fun h => lt_of_le_of_ne h.1 h.2)

end RunLemmas

section ThrowLemmas

variable {α : Type}

theorem skipB_passEntry (P : List (String × PluginData)) (e : HookEntry α) :
    skipB P (passEntry e) = skipB P e := rfl

theorem runEntries_replace_throw (P : List (String × PluginData))
    (es₁ es₂ : List (HookEntry α)) (e : HookEntry α)
    (hthrow : ∀ x, e.handler.fn x = .throws) (d : α) :
    runEntries P (es₁ ++ e :: es₂) d = runEntries P (es₁ ++ passEntry e :: es₂) d := by
  induction es₁ generalizing d with
  | nil =>
    rw [List.nil_append, List.nil_append, runEntries_cons, runEntries_cons,
        skipB_passEntry]
    by_cases h : skipB P e
    · rw [if_pos h, if_pos h]
    · rw [if_neg h, if_neg h, hthrow d]
      rfl
  | cons x es₁ ih =>
    rw [List.cons_append, List.cons_append, runEntries_cons, runEntries_cons]
    by_cases h : skipB P x
    · rw [if_pos h, if_pos h, ih]
    · rw [if_neg h, if_neg h, ih]

end ThrowLemmas

section SkipLemmas

variable {α : Type}

theorem runEntries_drop_skipped (P : List (String × PluginData)) (name : String)
    (hsk : ∀ e : HookEntry α, e.plugin = name → skipB P e = true)
    (es : List (HookEntry α)) (d : α) :
    runEntries P es d = runEntries P (es.filter (fun e => ¬ e.plugin = name)) d := by
  induction es generalizing d with
  | nil => rfl
  | cons e es ih =>
    by_cases hp : e.plugin = name
    · rw [runEntries_cons, if_pos (hsk e hp), List.filter_cons_of_neg (by simp [hp]), ih]
    · rw [List.filter_cons_of_pos (by simp [hp]), runEntries_cons, runEntries_cons]
      by_cases hb : skipB P e
      · rw [if_pos hb, if_pos hb, ih]
      · rw [if_neg hb, if_neg hb, ih]

end SkipLemmas

section ByteLemmas

theorem utf8Decode_cons (b : Nat) (bs : List Nat) :
    utf8Decode (b :: bs) =
      (utf8DecodeOne b bs).1 :: utf8Decode (bs.drop (utf8DecodeOne b bs).2) := by
  rw [utf8Decode]

theorem utf8DecodeOne_one {c : Nat} (h : c < 0x80) (bs : List Nat) :
    utf8DecodeOne c bs = (Char.ofNat c, 0) := by
  rw [utf8DecodeOne.eq_def, if_pos h]

theorem utf8DecodeOne_two {c : Nat} (h1 : 0x80 ≤ c) (h2 : c < 0x800) (bs : List Nat) :
    utf8DecodeOne (0xC0 + c / 64) ((0x80 + c % 64) :: bs) = (Char.ofNat c, 1) := by
  have hd : c / 64 < 32 := by omega
  have hd2 : 2 ≤ c / 64 := by omega
  have hm : c % 64 < 64 := by omega
  rw [utf8DecodeOne.eq_def, if_neg (by omega), if_neg (by omega), if_pos (by omega)]
  dsimp only
  rw [if_pos (by omega)]
  have hcp : (0xC0 + c / 64 - 0xC0) * 64 + (0x80 + c % 64 - 0x80) = c := by omega
  rw [hcp, if_neg (by omega)]


theorem utf8DecodeOne_three {c : Nat} (h1 : 0x800 ≤ c) (h2 : c < 0x10000)
    (hs : ¬(0xD800 ≤ c ∧ c < 0xE000)) (bs : List Nat) :
    utf8DecodeOne (0xE0 + c / 4096) ((0x80 + c / 64 % 64) :: (0x80 + c % 64) :: bs) =
      (Char.ofNat c, 2) := by
  have hd : c / 4096 < 16 := by omega
  rw [utf8DecodeOne.eq_def, if_neg (by omega), if_neg (by omega), if_neg (by omega),
      if_pos (by omega)]
  dsimp only
  rw [if_pos (by omega)]
  have hcp : (0xE0 + c / 4096 - 0xE0) * 4096 + (0x80 + c / 64 % 64 - 0x80) * 64 +
      (0x80 + c % 64 - 0x80) = c := by omega
  rw [hcp, if_neg (by omega)]

theorem utf8DecodeOne_four {c : Nat} (h1 : 0x10000 ≤ c) (h2 : c < 0x110000)
    (bs : List Nat) :
    utf8DecodeOne (0xF0 + c / 262144)
      ((0x80 + c / 4096 % 64) :: (0x80 + c / 64 % 64) :: (0x80 + c % 64) :: bs) =
      (Char.ofNat c, 3) := by
  have hd : c / 262144 < 5 := by omega
  rw [utf8DecodeOne.eq_def, if_neg (by omega), if_neg (by omega), if_neg (by omega),
      if_neg (by omega), if_pos (by omega)]
  dsimp only
  rw [if_pos (by omega)]
  have hcp : (0xF0 + c / 262144 - 0xF0) * 262144 + (0x80 + c / 4096 % 64 - 0x80) * 4096 +
      (0x80 + c / 64 % 64 - 0x80) * 64 + (0x80 + c % 64 - 0x80) = c := by omega
  rw [hcp, if_neg (by omega)]

theorem char_valid_ranges (c : Char) :
    c.toNat < 0xD800 ∨ (0xE000 ≤ c.toNat ∧ c.toNat < 0x110000) := by
  have hvt : c.toNat = c.val.toNat := rfl
  rcases c.valid with h | ⟨h1, h2⟩
  · exact Or.inl (by omega)
  · exact Or.inr ⟨by omega, by omega⟩

theorem utf8EncodeChar_decode (c : Char) (rest : List Nat) :
    utf8Decode (utf8EncodeChar c.toNat ++ rest) = c :: utf8Decode rest := by
  have hv := char_valid_ranges c
  have hofNat : Char.ofNat c.toNat = c := Char.ofNat_toNat c
  by_cases h1 : c.toNat < 0x80
  · rw [utf8EncodeChar, if_pos h1, List.cons_append, List.nil_append,
        utf8Decode_cons, utf8DecodeOne_one h1, hofNat]
    simp
  · by_cases h2 : c.toNat < 0x800
    · rw [utf8EncodeChar, if_neg h1, if_pos h2]
      rw [show ([0xC0 + c.toNat / 64, 0x80 + c.toNat % 64] : List Nat) ++ rest =
          (0xC0 + c.toNat / 64) :: ((0x80 + c.toNat % 64) :: rest) from rfl]
      rw [utf8Decode_cons, utf8DecodeOne_two (by omega) h2, hofNat]
      simp
    · by_cases h3 : c.toNat < 0x10000
      · rw [utf8EncodeChar, if_neg h1, if_neg h2, if_pos h3]
        rw [show ([0xE0 + c.toNat / 4096, 0x80 + c.toNat / 64 % 64, 0x80 + c.toNat % 64] :
            List Nat) ++ rest =
            (0xE0 + c.toNat / 4096) ::
              ((0x80 + c.toNat / 64 % 64) :: ((0x80 + c.toNat % 64) :: rest)) from rfl]
        rw [utf8Decode_cons, utf8DecodeOne_three (by omega) h3 (by omega), hofNat]
        simp
      · have h4 : c.toNat < 0x110000 := by omega
        rw [utf8EncodeChar, if_neg h1, if_neg h2, if_neg h3]
        rw [show ([0xF0 + c.toNat / 262144, 0x80 + c.toNat / 4096 % 64,
            0x80 + c.toNat / 64 % 64, 0x80 + c.toNat % 64] : List Nat) ++ rest =
            (0xF0 + c.toNat / 262144) ::
              ((0x80 + c.toNat / 4096 % 64) ::
                ((0x80 + c.toNat / 64 % 64) :: ((0x80 + c.toNat % 64) :: rest))) from rfl]
        rw [utf8Decode_cons, utf8DecodeOne_four (by omega) h4, hofNat]
        simp

theorem utf8Decode_utf8Encode (s : List Char) : utf8Decode (utf8Encode s) = s := by
  induction s with
  | nil =>
    rw [show utf8Encode [] = [] from rfl, utf8Decode]
  | cons c s ih =>
    rw [utf8Encode, List.map_cons, List.flatten_cons]
    rw [utf8EncodeChar_decode c]
    rw [show (List.map (fun c => utf8EncodeChar c.toNat) s).flatten = utf8Encode s from rfl,
        ih]


theorem writeBytes_nil (mem : List Nat) (ptr : Nat) : writeBytes mem ptr [] = mem := rfl

theorem writeBytes_cons (mem : List Nat) (ptr : Nat) (b : Nat) (bs : List Nat) :
    writeBytes mem ptr (b :: bs) = writeBytes (mem.set ptr b) (ptr + 1) bs := rfl

theorem writeBytes_eq (bs : List Nat) (mem : List Nat) (ptr : Nat)
    (h : ptr + bs.length ≤ mem.length) :
    writeBytes mem ptr bs = mem.take ptr ++ bs ++ mem.drop (ptr + bs.length) := by
  induction bs generalizing mem ptr with
  | nil =>
    rw [writeBytes_nil]
    simp [List.take_append_drop]
  | cons b bs ih =>
    have hlen : bs.length + 1 = (b :: bs).length := by simp
    have hlt : ptr < mem.length := by
      simp only [List.length_cons] at h
      omega
    rw [writeBytes_cons,
        ih (mem.set ptr b) (ptr + 1)
          (by rw [List.length_set]; simp only [List.length_cons] at h; omega)]
    have hset : mem.set ptr b = mem.take ptr ++ b :: mem.drop (ptr + 1) := by
      rw [List.set_eq_take_append_cons_drop, if_pos hlt]
    have hlentake : (mem.take ptr).length = ptr := by
      rw [List.length_take]
      omega
    have htake : (mem.set ptr b).take (ptr + 1) = mem.take ptr ++ [b] := by
      rw [hset, show ptr + 1 = (mem.take ptr).length + 1 from by rw [hlentake],
          List.take_append]
      simp
    have hdrop : (mem.set ptr b).drop (ptr + 1 + bs.length) = mem.drop (ptr + 1 + bs.length) := by
      rw [List.drop_set, if_pos (by omega)]
    rw [htake, hdrop]
    have hidx : ptr + 1 + bs.length = ptr + (b :: bs).length := by
      simp only [List.length_cons]
      omega
    rw [hidx]
    simp [List.append_assoc]

theorem writeBytes_outside (bs : List Nat) (mem : List Nat) (ptr i : Nat)
    (h : i < ptr ∨ ptr + bs.length ≤ i) :
    (writeBytes mem ptr bs)[i]? = mem[i]? := by
  induction bs generalizing mem ptr with
  | nil => rw [writeBytes_nil]
  | cons b bs ih =>
    rw [writeBytes_cons,
        ih (mem.set ptr b) (ptr + 1) (by simp only [List.length_cons] at h; omega)]
    exact List.getElem?_set_ne (by simp only [List.length_cons] at h; omega)

theorem takeUntilZero_append (C rest : List Nat) (hC : ∀ b ∈ C, ¬ b = 0) :
    takeUntilZero (C ++ 0 :: rest) = C := by
  induction C with
  | nil => rw [List.nil_append, takeUntilZero, if_pos rfl]
  | cons c C ih =>
    rw [List.cons_append, takeUntilZero, if_neg (hC c (by simp)),
        ih (fun b hb => hC b (by simp [hb]))]

theorem writeCString_eq (mem : List Nat) (ptr : Nat) (s : List Char) (maxLen : Nat)
    (hmax : 1 ≤ maxLen) (hb : ptr + maxLen ≤ mem.length) :
    (writeCString mem ptr s maxLen).1 =
      mem.take ptr ++ (utf8Encode s).take (min (utf8Encode s).length (maxLen - 1)) ++
        0 :: mem.drop (ptr + min (utf8Encode s).length (maxLen - 1) + 1) ∧
    (writeCString mem ptr s maxLen).2 =
      ((min (utf8Encode s).length (maxLen - 1) : Nat) : Int) := by
  have hlenInt : min ((utf8Encode s).length : Int) ((maxLen : Int) - 1) =
      ((min (utf8Encode s).length (maxLen - 1) : Nat) : Int) := by
    omega
  have hToNat : (min ((utf8Encode s).length : Int) ((maxLen : Int) - 1)).toNat =
      min (utf8Encode s).length (maxLen - 1) := by
    omega
  have hlenN : min (utf8Encode s).length (maxLen - 1) ≤ maxLen - 1 := Nat.min_le_right _ _
  have htklen : ((utf8Encode s).take (min (utf8Encode s).length (maxLen - 1))).length =
      min (utf8Encode s).length (maxLen - 1) := by
    rw [List.length_take]
    omega
  have hwb : writeBytes mem ptr ((utf8Encode s).take (min (utf8Encode s).length (maxLen - 1))) =
      mem.take ptr ++ (utf8Encode s).take (min (utf8Encode s).length (maxLen - 1)) ++
        mem.drop (ptr + min (utf8Encode s).length (maxLen - 1)) := by
    rw [writeBytes_eq _ _ _ (by rw [htklen]; omega), htklen]
  constructor
  · rw [writeCString]
    simp only [hToNat, hwb]
    rw [setByteI, if_pos (by omega)]
    have hidx : (((ptr : Int) + min ((utf8Encode s).length : Int) ((maxLen : Int) - 1))).toNat =
        ptr + min (utf8Encode s).length (maxLen - 1) := by
      omega
    rw [hidx]
    have hlenpre : (mem.take ptr ++
        (utf8Encode s).take (min (utf8Encode s).length (maxLen - 1))).length =
        ptr + min (utf8Encode s).length (maxLen - 1) := by
      rw [List.length_append, List.length_take, htklen]
      omega
    rw [List.set_append, if_neg (by rw [hlenpre]; omega), hlenpre]
    have hdropC : mem.drop (ptr + min (utf8Encode s).length (maxLen - 1)) =
        mem[ptr + min (utf8Encode s).length (maxLen - 1)] ::
          mem.drop (ptr + min (utf8Encode s).length (maxLen - 1) + 1) := by
      exact List.drop_eq_getElem_cons (by omega)
    rw [show ptr + min (utf8Encode s).length (maxLen - 1) -
        (ptr + min (utf8Encode s).length (maxLen - 1)) = 0 from by omega]
    rw [hdropC, List.set_cons_zero]
  · rw [writeCString]
    simp only [hlenInt]


theorem drop_length_append (A X : List Nat) (n : Nat) (h : A.length = n) :
    (A ++ X).drop n = X := by
  rw [← h, List.drop_left]

end ByteLemmas

section ClaimTheorems

/-- C1: for every hook point and every sequence of `addHook` calls starting
from the initial (empty) registry, the stored entry list is sorted by
ascending priority, entries of equal priority keep their registration order,
and both `executeHooks` and `executeHooksSync` run exactly that list as a
left-to-right waterfall (so a later handler sees the value transformed by all
earlier ones); when all registered priorities are distinct, the visit order
is strictly ascending. -/
theorem hooks_execute_in_ascending_priority_order {α : Type}
    (adds : List (AddCall α)) (h : String) (d : α) :
    let st := applyAdds (initialRegistry : Registry α) adds
    let es := hookEntries st h
    EntriesSorted es ∧
    (∀ p : Int, es.filter (fun e => e.priority == p) =
      (regEntries h adds).filter (fun e => e.priority == p)) ∧
    executeHooks st h d = waterfall (es.map (fun e => e.handler.fn)) d ∧
    executeHooksSync st h d = waterfall (es.map (fun e => e.handler.fn)) d ∧
    (((regEntries h adds).map (fun e => e.priority)).Nodup →
      es.Pairwise (fun a b => a.priority < b.priority)) := by
  intro st es
  have hes : es = sortEntries (regEntries h adds) := applyAdds_initial adds h
  have hplug : st.plugins = [] := plugins_applyAdds initialRegistry adds
  have hnoskip : ∀ e : HookEntry α, skipB st.plugins e = false := by
    intro e
    rw [hplug]
    exact skipB_of_none rfl
  have hsorted : EntriesSorted es := hes ▸ sortEntries_sorted (regEntries h adds)
  have hexec : executeHooks st h d = waterfall (es.map (fun e => e.handler.fn)) d := by
    rw [executeHooks_eq_run, runEntries_eq_waterfall,
        List.filter_eq_self.mpr (fun e _ => by rw [hnoskip e]; rfl)]
  refine ⟨hsorted, ?_, hexec, hexec, ?_⟩
  · intro p
    rw [hes, sortEntries_filter]
  · intro hnd
    refine entries_strict_of_nodup hsorted ?_
    have hperm0 : List.Perm es (regEntries h adds) := by
      rw [hes]
      exact sortEntries_perm (regEntries h adds)
    exact (hperm0.map (fun e : HookEntry α => e.priority)).nodup_iff.mpr hnd

/-- Witness for C1 at a concrete pair of registrations with distinct
priorities 5 and 1: the resulting list is strictly ascending. -/
theorem hooks_execute_in_ascending_priority_order_witness :
    ((regEntries "h" ([⟨"h", ⟨fun d => HandlerOutcome.ret (d+1), some 5⟩, "p1"⟩,
        ⟨"h", ⟨fun d => HandlerOutcome.ret (d*2), some 1⟩, "p2"⟩] : List (AddCall Nat))).map
      (fun e => e.priority)).Nodup ∧
    (hookEntries (applyAdds (initialRegistry : Registry Nat)
        [⟨"h", ⟨fun d => HandlerOutcome.ret (d+1), some 5⟩, "p1"⟩,
         ⟨"h", ⟨fun d => HandlerOutcome.ret (d*2), some 1⟩, "p2"⟩]) "h").Pairwise
      (fun a b => a.priority < b.priority) :=
  ⟨by decide,
   (hooks_execute_in_ascending_priority_order
      [⟨"h", ⟨fun d => HandlerOutcome.ret (d+1), some 5⟩, "p1"⟩,
       ⟨"h", ⟨fun d => HandlerOutcome.ret (d*2), some 1⟩, "p2"⟩] "h" 0).2.2.2.2
    (by decide)⟩

/-- C2: a handler that always throws does not change the waterfall's final
value relative to a pass-through replacement (for both `executeHooks` and
`executeHooksSync`), and when it is not skipped the chain after it is exactly
the chain over the remaining entries on the unchanged value, with the
throwing handler itself still invoked.  The registries are read-only inside
`executeHooks`, which the embedding reflects by type. -/
theorem throwing_handler_acts_as_passthrough {α : Type} (st : Registry α)
    (h : String) (d : α) (es₁ es₂ : List (HookEntry α)) (e : HookEntry α)
    (hes : mapGet st.hooks h = some (es₁ ++ e :: es₂))
    (hthrow : ∀ x, e.handler.fn x = .throws) :
    (executeHooks st h d =
      executeHooks { st with hooks := mapSet st.hooks h (es₁ ++ passEntry e :: es₂) } h d) ∧
    (executeHooksSync st h d =
      executeHooksSync { st with hooks := mapSet st.hooks h (es₁ ++ passEntry e :: es₂) } h d) ∧
    (skipB st.plugins e = false →
      runEntriesT st.plugins (e :: es₂) d =
        (runEntries st.plugins es₂ d, e :: (runEntriesT st.plugins es₂ d).2)) := by
  have hget' : mapGet (mapSet st.hooks h (es₁ ++ passEntry e :: es₂)) h =
      some (es₁ ++ passEntry e :: es₂) := by
    rw [mapGet_mapSet, if_pos rfl]
  have hmain : executeHooks st h d =
      executeHooks { st with hooks := mapSet st.hooks h (es₁ ++ passEntry e :: es₂) } h d := by
    rw [executeHooks, executeHooks, hes, hget']
    exact runEntries_replace_throw st.plugins es₁ es₂ e hthrow d
  refine ⟨hmain, hmain, ?_⟩
  intro hskip
  rw [runEntriesT_cons, if_neg (by rw [hskip]; simp), hthrow d, runEntriesT_spec,
      runEntriesT_spec]
  rfl

/-- Witness for C2: a single always-throwing handler at hook `h` leaves the
data unchanged, exactly as its pass-through replacement does, and is itself
recorded as invoked. -/
theorem throwing_handler_acts_as_passthrough_witness :
    (executeHooks (⟨[], [("h", [⟨⟨fun _ => HandlerOutcome.throws, none⟩, "p", 10⟩])]⟩ :
        Registry Nat) "h" 3 =
      executeHooks { (⟨[], [("h", [⟨⟨fun _ => HandlerOutcome.throws, none⟩, "p", 10⟩])]⟩ :
          Registry Nat) with
        hooks := mapSet [("h", [⟨⟨fun _ => HandlerOutcome.throws, none⟩, "p", 10⟩])] "h"
          ([] ++ passEntry ⟨⟨fun _ => HandlerOutcome.throws, none⟩, "p", 10⟩ :: []) } "h" 3) ∧
    (runEntriesT ([] : List (String × PluginData))
        (⟨⟨fun _ => HandlerOutcome.throws, none⟩, "p", 10⟩ :: []) 3 =
      (runEntries ([] : List (String × PluginData)) [] 3,
        (⟨⟨fun _ => HandlerOutcome.throws, none⟩, "p", 10⟩ : HookEntry Nat) ::
          (runEntriesT ([] : List (String × PluginData)) [] 3).2)) :=
  ⟨(throwing_handler_acts_as_passthrough
      (⟨[], [("h", [⟨⟨fun _ => HandlerOutcome.throws, none⟩, "p", 10⟩])]⟩ : Registry Nat)
      "h" 3 [] [] ⟨⟨fun _ => HandlerOutcome.throws, none⟩, "p", 10⟩ rfl
      (fun _ => rfl)).1,
   (throwing_handler_acts_as_passthrough
      (⟨[], [("h", [⟨⟨fun _ => HandlerOutcome.throws, none⟩, "p", 10⟩])]⟩ : Registry Nat)
      "h" 3 [] [] ⟨⟨fun _ => HandlerOutcome.throws, none⟩, "p", 10⟩ rfl
      (fun _ => rfl)).2.2 rfl⟩

/-- C5: disabling a currently enabled registered plugin makes every
subsequent `executeHooks` run skip exactly its handlers (the hook map is
untouched, so the entries stay registered, and the run equals the run over
the other entries), and re-enabling it restores the registry exactly as it
was before disabling. -/
theorem disable_skips_and_enable_restores {α : Type} (st : Registry α)
    (name : String) (pd : PluginData) (hreg : mapGet st.plugins name = some pd)
    (hen : pd.enabled = true) :
    (setPluginEnabled st name false).2 = true ∧
    (setPluginEnabled st name false).1.hooks = st.hooks ∧
    (∀ h d, ∀ e ∈ (executeHooksT (setPluginEnabled st name false).1 h d).2,
      ¬ e.plugin = name) ∧
    (∀ (es : List (HookEntry α)) (d : α),
      runEntries (setPluginEnabled st name false).1.plugins es d =
        runEntries (setPluginEnabled st name false).1.plugins
          (es.filter (fun e => ¬ e.plugin = name)) d) ∧
    setPluginEnabled (setPluginEnabled st name false).1 name true = (st, true) := by
  have hres : setPluginEnabled st name false =
      ({ st with plugins := mapUpdate st.plugins name (fun q => { q with enabled := false }) },
        true) := by
    rw [setPluginEnabled, hreg]
  have hget₁ : mapGet (setPluginEnabled st name false).1.plugins name =
      some { pd with enabled := false } := by
    rw [hres, mapGet_mapUpdate, if_pos rfl, hreg]
    rfl
  have hsk : ∀ e : HookEntry α, e.plugin = name →
      skipB (setPluginEnabled st name false).1.plugins e = true := by
    intro e hp
    rw [skipB, hp, hget₁]
    rfl
  refine ⟨by rw [hres], by rw [hres], ?_, ?_, ?_⟩
  · intro h d e he hp
    rw [executeHooksT_spec] at he
    have := (List.mem_filter.mp he).2
    rw [hsk e hp] at this
    simp at this
  · intro es d
    exact runEntries_drop_skipped _ name hsk es d
  · rw [setPluginEnabled, hget₁]
    have hcancel : mapUpdate
        (mapUpdate st.plugins name (fun q => { q with enabled := false })) name
        (fun q => { q with enabled := true }) = st.plugins := by
      refine mapGet_mapUpdate_cancel st.plugins name _ _ pd hreg ?_
      cases pd
      simp only [] at hen
      rw [hen]
    rw [hres]
    simp only [hcancel]

/-- Witness for C5: a registry with one enabled plugin owning one handler;
disabling reports success and re-enabling returns the original registry. -/
theorem disable_skips_and_enable_restores_witness :
    (setPluginEnabled
        (⟨[("p", ⟨"p", "1.0.0", "", true, [], none⟩)],
          [("h", [⟨⟨fun d => HandlerOutcome.ret (d + 1), none⟩, "p", 10⟩])]⟩ :
          Registry Nat) "p" false).2 = true ∧
    setPluginEnabled
        (setPluginEnabled
          (⟨[("p", ⟨"p", "1.0.0", "", true, [], none⟩)],
            [("h", [⟨⟨fun d => HandlerOutcome.ret (d + 1), none⟩, "p", 10⟩])]⟩ :
            Registry Nat) "p" false).1 "p" true =
      ((⟨[("p", ⟨"p", "1.0.0", "", true, [], none⟩)],
        [("h", [⟨⟨fun d => HandlerOutcome.ret (d + 1), none⟩, "p", 10⟩])]⟩ :
        Registry Nat), true) :=
  ⟨(disable_skips_and_enable_restores
      (⟨[("p", ⟨"p", "1.0.0", "", true, [], none⟩)],
        [("h", [⟨⟨fun d => HandlerOutcome.ret (d + 1), none⟩, "p", 10⟩])]⟩ :
        Registry Nat) "p" ⟨"p", "1.0.0", "", true, [], none⟩ rfl rfl).1,
   (disable_skips_and_enable_restores
      (⟨[("p", ⟨"p", "1.0.0", "", true, [], none⟩)],
        [("h", [⟨⟨fun d => HandlerOutcome.ret (d + 1), none⟩, "p", 10⟩])]⟩ :
        Registry Nat) "p" ⟨"p", "1.0.0", "", true, [], none⟩ rfl rfl).2.2.2.2⟩

/-- C6 counterexample: the claim says a missing plugin name yields a boolean
failure (`false`) that never escapes as an exception, but `registerPlugin`
with a falsy name throws `Error('Plugin must have a name')`: the call's
outcome is an exception, not `.ok false`. -/
theorem registerPlugin_missing_name_throws :
    (registerPlugin (initialRegistry : Registry Nat)
        ⟨"", none, none, none, [], none⟩).2 =
      Except.error "Plugin must have a name" := rfl

/-- C6 (amended): `registerPlugin` returns `false` without mutating either
registry when the name is already registered; a missing (falsy) name instead
throws an exception, also without mutating the registries.  Only the
duplicate-name failure is a boolean failure. -/
theorem register_duplicate_boolean_missing_name_throws {α : Type}
    (st : Registry α) (p : PluginDesc α) :
    (¬ p.name = "" → (mapGet st.plugins p.name).isSome = true →
      registerPlugin st p = (st, Except.ok false)) ∧
    (p.name = "" →
      registerPlugin st p = (st, Except.error "Plugin must have a name")) := by
  constructor
  · intro hname hdup
    rw [registerPlugin, if_neg hname, if_pos hdup]
  · intro hname
    rw [registerPlugin, if_pos hname]

/-- Witness for C6 (amended): re-registering the name `p` fails with the
boolean `false` and an unchanged registry; an empty name throws. -/
theorem register_duplicate_boolean_missing_name_throws_witness :
    registerPlugin
        (⟨[("p", ⟨"p", "1.0.0", "", true, [], none⟩)], []⟩ : Registry Nat)
        ⟨"p", none, none, none, [], none⟩ =
      ((⟨[("p", ⟨"p", "1.0.0", "", true, [], none⟩)], []⟩ : Registry Nat),
        Except.ok false) ∧
    registerPlugin (initialRegistry : Registry Nat) ⟨"", none, none, none, [], none⟩ =
      (initialRegistry, Except.error "Plugin must have a name") :=
  ⟨(register_duplicate_boolean_missing_name_throws
      (⟨[("p", ⟨"p", "1.0.0", "", true, [], none⟩)], []⟩ : Registry Nat)
      ⟨"p", none, none, none, [], none⟩).1 (by decide) rfl,
   (register_duplicate_boolean_missing_name_throws
      (initialRegistry : Registry Nat) ⟨"", none, none, none, [], none⟩).2 rfl⟩

/-- C7: unregistering a registered plugin returns `true`, deletes its
metadata, filters its entries out of every hook point's array, and no
subsequent `executeHooks` run ever invokes one of its former handlers; for an
unknown name the call is a no-op returning `false`. -/
theorem unregister_removes_all_handlers {α : Type} (st : Registry α)
    (name : String) :
    (∀ pd, mapGet st.plugins name = some pd →
      (unregisterPlugin st name).2 = true ∧
      mapGet (unregisterPlugin st name).1.plugins name = none ∧
      (∀ h, mapGet (unregisterPlugin st name).1.hooks h =
        (mapGet st.hooks h).map (fun es => es.filter (fun e => ¬ e.plugin = name))) ∧
      (∀ h d, ∀ e ∈ (executeHooksT (unregisterPlugin st name).1 h d).2,
        ¬ e.plugin = name)) ∧
    (mapGet st.plugins name = none → unregisterPlugin st name = (st, false)) := by
  constructor
  · intro pd hreg
    have hres : unregisterPlugin st name =
        ({ plugins := mapDelete st.plugins name,
           hooks := st.hooks.map (fun p => (p.1, p.2.filter (fun e => ¬ e.plugin = name))) },
          true) := by
      rw [unregisterPlugin, hreg]
    have hhooks : ∀ h, mapGet (unregisterPlugin st name).1.hooks h =
        (mapGet st.hooks h).map (fun es => es.filter (fun e => ¬ e.plugin = name)) := by
      intro h
      rw [hres]
      exact mapGet_valuesMap st.hooks h _
    refine ⟨by rw [hres], ?_, hhooks, ?_⟩
    · rw [hres]
      simp only []
      rw [mapGet_mapDelete, if_pos rfl]
    · intro h d e he
      rw [executeHooksT_spec] at he
      have hmem : e ∈ hookEntries (unregisterPlugin st name).1 h :=
        (List.mem_filter.mp he).1
      rw [hookEntries, hhooks h] at hmem
      rcases hM : mapGet st.hooks h with _ | es
      · rw [hM] at hmem
        simp at hmem
      · rw [hM] at hmem
        exact (by simpa using hmem : e ∈ es ∧ ¬ e.plugin = name).2
  · intro hnone
    rw [unregisterPlugin, hnone]

/-- Witness for C7: unregistering plugin `p` from a registry with one of its
handlers succeeds, empties the hook array, and an unknown name is a no-op
returning `false`. -/
theorem unregister_removes_all_handlers_witness :
    (unregisterPlugin
        (⟨[("p", ⟨"p", "1.0.0", "", true, [], none⟩)],
          [("h", [⟨⟨fun d => HandlerOutcome.ret (d + 1), none⟩, "p", 10⟩])]⟩ :
          Registry Nat) "p").2 = true ∧
    mapGet (unregisterPlugin
        (⟨[("p", ⟨"p", "1.0.0", "", true, [], none⟩)],
          [("h", [⟨⟨fun d => HandlerOutcome.ret (d + 1), none⟩, "p", 10⟩])]⟩ :
          Registry Nat) "p").1.plugins "p" = none ∧
    unregisterPlugin (initialRegistry : Registry Nat) "p" = (initialRegistry, false) :=
  ⟨((unregister_removes_all_handlers
      (⟨[("p", ⟨"p", "1.0.0", "", true, [], none⟩)],
        [("h", [⟨⟨fun d => HandlerOutcome.ret (d + 1), none⟩, "p", 10⟩])]⟩ :
        Registry Nat) "p").1 ⟨"p", "1.0.0", "", true, [], none⟩ rfl).1,
   ((unregister_removes_all_handlers
      (⟨[("p", ⟨"p", "1.0.0", "", true, [], none⟩)],
        [("h", [⟨⟨fun d => HandlerOutcome.ret (d + 1), none⟩, "p", 10⟩])]⟩ :
        Registry Nat) "p").1 ⟨"p", "1.0.0", "", true, [], none⟩ rfl).2.1,
   (unregister_removes_all_handlers (initialRegistry : Registry Nat) "p").2 rfl⟩

/-- C10: a handler whose owner name has no plugin record (e.g. the default
owner `anonymous`) is never skipped: it is always invoked by
`executeHooks`/`executeHooksSync`, and `setPluginEnabled` on that owner name
is a no-op returning `false`, so such handlers can never be disabled. -/
theorem unowned_handlers_always_run {α : Type} (st : Registry α) (h : String)
    (d : α) (es : List (HookEntry α)) (e : HookEntry α)
    (hhooks : mapGet st.hooks h = some es)
    (hnone : mapGet st.plugins e.plugin = none) :
    skipB st.plugins e = false ∧
    (e ∈ es → e ∈ (executeHooksT st h d).2) ∧
    executeHooksSync st h d = (executeHooksT st h d).1 ∧
    (∀ b, setPluginEnabled st e.plugin b = (st, false)) := by
  have hsk : skipB st.plugins e = false := skipB_of_none hnone
  refine ⟨hsk, ?_, ?_, ?_⟩
  · intro he
    rw [executeHooksT_spec]
    refine List.mem_filter.mpr ⟨?_, by rw [hsk]; rfl⟩
    rw [hookEntries, hhooks]
    exact he
  · rw [executeHooksT_spec, executeHooksSync_eq]
  · intro b
    rw [setPluginEnabled, hnone]

/-- Witness for C10: a single handler owned by `anonymous` (no plugin record)
is invoked, and `setPluginEnabled('anonymous', false)` fails. -/
theorem unowned_handlers_always_run_witness :
    ((⟨⟨fun d => HandlerOutcome.ret (d + 1), none⟩, "anonymous", 10⟩ : HookEntry Nat) ∈
      (executeHooksT
        (⟨[], [("h", [⟨⟨fun d => HandlerOutcome.ret (d + 1), none⟩, "anonymous", 10⟩])]⟩ :
          Registry Nat) "h" 0).2) ∧
    setPluginEnabled
        (⟨[], [("h", [⟨⟨fun d => HandlerOutcome.ret (d + 1), none⟩, "anonymous", 10⟩])]⟩ :
          Registry Nat) "anonymous" false =
      ((⟨[], [("h", [⟨⟨fun d => HandlerOutcome.ret (d + 1), none⟩, "anonymous", 10⟩])]⟩ :
          Registry Nat), false) :=
  ⟨(unowned_handlers_always_run
      (⟨[], [("h", [⟨⟨fun d => HandlerOutcome.ret (d + 1), none⟩, "anonymous", 10⟩])]⟩ :
        Registry Nat) "h" 0
      [⟨⟨fun d => HandlerOutcome.ret (d + 1), none⟩, "anonymous", 10⟩]
      ⟨⟨fun d => HandlerOutcome.ret (d + 1), none⟩, "anonymous", 10⟩ rfl rfl).2.1
    (by simp),
   (unowned_handlers_always_run
      (⟨[], [("h", [⟨⟨fun d => HandlerOutcome.ret (d + 1), none⟩, "anonymous", 10⟩])]⟩ :
        Registry Nat) "h" 0
      [⟨⟨fun d => HandlerOutcome.ret (d + 1), none⟩, "anonymous", 10⟩]
      ⟨⟨fun d => HandlerOutcome.ret (d + 1), none⟩, "anonymous", 10⟩ rfl rfl).2.2.2
    false⟩

/-- C3 counterexample: with `maxLen = 0` the claim's "never modifies any byte
outside [pointer, pointer + maxLen)" fails: `len = Math.min(1, -1) = -1`, so
the terminator store `bytes[ptr + len] = 0` hits index `ptr - 1 = 0`,
changing byte 0 from 5 to 0 although the window `[1, 1)` is empty; the call
also returns `-1`, which is not the number of content bytes written (0). -/
theorem writeCString_maxLen_zero_writes_before_ptr :
    (writeCString [5, 5, 5, 5] 1 [Char.ofNat 97] 0).1 = [0, 5, 5, 5] ∧
    (writeCString [5, 5, 5, 5] 1 [Char.ofNat 97] 0).2 = -1 := by
  decide

/-- C3 (amended): for `maxLen ≥ 1`, `writeCString` UTF-8-encodes the text and
writes `len = min(|encoding|, maxLen - 1) ≤ maxLen - 1` content bytes, never
modifies any byte outside `[ptr, ptr + maxLen)`, and returns `len`; when the
window `[ptr, ptr + maxLen)` lies inside memory it leaves exactly the `len`
content bytes at `ptr` followed by one zero terminator at `ptr + len`,
preserving the memory length.  (For `maxLen = 0` the code instead writes a
zero at `ptr - 1` and returns `-1`.) -/
theorem writeCString_safety (mem : List Nat) (ptr : Nat) (s : List Char)
    (maxLen : Nat) (hmax : 1 ≤ maxLen) :
    (∀ i : Nat, i < ptr ∨ ptr + maxLen ≤ i →
      ((writeCString mem ptr s maxLen).1)[i]? = mem[i]?) ∧
    min (utf8Encode s).length (maxLen - 1) ≤ maxLen - 1 ∧
    (writeCString mem ptr s maxLen).2 =
      ((min (utf8Encode s).length (maxLen - 1) : Nat) : Int) ∧
    (ptr + maxLen ≤ mem.length →
      (writeCString mem ptr s maxLen).1.length = mem.length ∧
      (writeCString mem ptr s maxLen).1.drop ptr =
        (utf8Encode s).take (min (utf8Encode s).length (maxLen - 1)) ++
          0 :: mem.drop (ptr + min (utf8Encode s).length (maxLen - 1) + 1) ∧
      ((writeCString mem ptr s maxLen).1)[ptr + min (utf8Encode s).length (maxLen - 1)]? =
        some 0) := by
  have hlenN : min (utf8Encode s).length (maxLen - 1) ≤ maxLen - 1 :=
    Nat.min_le_right _ _
  have hToNat : (min ((utf8Encode s).length : Int) ((maxLen : Int) - 1)).toNat =
      min (utf8Encode s).length (maxLen - 1) := by omega
  have hlenInt : min ((utf8Encode s).length : Int) ((maxLen : Int) - 1) =
      ((min (utf8Encode s).length (maxLen - 1) : Nat) : Int) := by omega
  have htklen : ((utf8Encode s).take (min (utf8Encode s).length (maxLen - 1))).length =
      min (utf8Encode s).length (maxLen - 1) := by
    rw [List.length_take]
    omega
  refine ⟨?_, hlenN, ?_, ?_⟩
  · intro i hi
    rw [writeCString]
    simp only [hToNat]
    rw [setByteI, if_pos (by omega),
        show ((ptr : Int) + min ((utf8Encode s).length : Int) ((maxLen : Int) - 1)).toNat =
          ptr + min (utf8Encode s).length (maxLen - 1) from by omega,
        List.getElem?_set_ne (by omega)]
    exact writeBytes_outside _ mem ptr i (by rw [htklen]; omega)
  · rw [writeCString]
    simp only [hlenInt]
  · intro hb
    obtain ⟨hchar, _⟩ := writeCString_eq mem ptr s maxLen hmax hb
    have hlentake : (mem.take ptr).length = ptr := by
      rw [List.length_take]
      omega
    have hlenpre : (mem.take ptr ++
        (utf8Encode s).take (min (utf8Encode s).length (maxLen - 1))).length =
        ptr + min (utf8Encode s).length (maxLen - 1) := by
      rw [List.length_append, hlentake, htklen]
    refine ⟨?_, ?_, ?_⟩
    · rw [hchar]
      simp only [List.length_append, List.length_cons, hlentake, htklen,
        List.length_drop]
      omega
    · rw [hchar, List.append_assoc]
      exact drop_length_append _ _ _ hlentake
    · rw [hchar, List.getElem?_append_right (by rw [hlenpre]),
          show ptr + min (utf8Encode s).length (maxLen - 1) -
            (mem.take ptr ++
              (utf8Encode s).take (min (utf8Encode s).length (maxLen - 1))).length = 0
            from by rw [hlenpre]; omega]
      simp

/-- Witness for C3 (amended) at `mem = [7,7,7,7,7]`, `ptr = 1`, text `"ab"`,
`maxLen = 3`: byte 0 is untouched and the terminator lands at
`ptr + min(2, 2) = 3`. -/
theorem writeCString_safety_witness :
    ((writeCString [7, 7, 7, 7, 7] 1 [Char.ofNat 97, Char.ofNat 98] 3).1)[0]? =
      ([7, 7, 7, 7, 7] : List Nat)[0]? ∧
    ((writeCString [7, 7, 7, 7, 7] 1 [Char.ofNat 97, Char.ofNat 98] 3).1)[1 +
        min (utf8Encode [Char.ofNat 97, Char.ofNat 98]).length (3 - 1)]? = some 0 :=
  ⟨(writeCString_safety [7, 7, 7, 7, 7] 1 [Char.ofNat 97, Char.ofNat 98] 3
      (by decide)).1 0 (Or.inl (by decide)),
   ((writeCString_safety [7, 7, 7, 7, 7] 1 [Char.ofNat 97, Char.ofNat 98] 3
      (by decide)).2.2.2 (by decide)).2.2⟩

/-- C4 counterexample: the round-trip identity fails for text containing
U+0000 even though it fits: writing the one-character text `"\x00"` into a
4-byte window stores bytes `0, 0` but `readCString` stops at the first zero
and returns the empty text, not the original text. -/
theorem readCString_nul_roundtrip_fails :
    readCString ((writeCString [7, 7, 7, 7] 0 [Char.ofNat 0] 4).1) 0 = [] ∧
    (utf8Encode [Char.ofNat 0]).length ≤ 4 - 1 ∧
    ¬ ([] : List Char) = [Char.ofNat 0] := by
  have h1 : (writeCString [7, 7, 7, 7] 0 [Char.ofNat 0] 4).1 = [0, 0, 7, 7] := by
    decide
  refine ⟨?_, by decide, by decide⟩
  rw [readCString, h1,
      show takeUntilZero (([0, 0, 7, 7] : List Nat).drop 0) = [] from rfl,
      utf8Decode]

/-- C4 (amended): for `maxLen ≥ 1`, a window inside memory, and a text whose
written content bytes contain no zero byte: if the UTF-8 encoding is longer
than `maxLen - 1`, the memory at `ptr` holds exactly the first `maxLen - 1`
encoded bytes plus one zero terminator and `readCString` returns exactly the
decode of those `maxLen - 1` bytes; if the text fits, `readCString` returns
the text itself.  (A text containing U+0000 breaks the round trip because
the scan stops at the first zero byte.) -/
theorem readCString_writeCString_roundtrip (mem : List Nat) (ptr : Nat)
    (s : List Char) (maxLen : Nat) (hmax : 1 ≤ maxLen)
    (hb : ptr + maxLen ≤ mem.length)
    (hz : ¬ (0 : Nat) ∈ (utf8Encode s).take (maxLen - 1)) :
    (maxLen - 1 < (utf8Encode s).length →
      ((writeCString mem ptr s maxLen).1.drop ptr).take maxLen =
        (utf8Encode s).take (maxLen - 1) ++ [0] ∧
      readCString (writeCString mem ptr s maxLen).1 ptr =
        utf8Decode ((utf8Encode s).take (maxLen - 1))) ∧
    ((utf8Encode s).length ≤ maxLen - 1 →
      readCString (writeCString mem ptr s maxLen).1 ptr = s) := by
  have hlenN : min (utf8Encode s).length (maxLen - 1) ≤ maxLen - 1 :=
    Nat.min_le_right _ _
  have htklen : ((utf8Encode s).take (min (utf8Encode s).length (maxLen - 1))).length =
      min (utf8Encode s).length (maxLen - 1) := by
    rw [List.length_take]
    omega
  have hlentake : (mem.take ptr).length = ptr := by
    rw [List.length_take]
    omega
  obtain ⟨hchar, _⟩ := writeCString_eq mem ptr s maxLen hmax hb
  have hdropPtr : (writeCString mem ptr s maxLen).1.drop ptr =
      (utf8Encode s).take (min (utf8Encode s).length (maxLen - 1)) ++
        0 :: mem.drop (ptr + min (utf8Encode s).length (maxLen - 1) + 1) := by
    rw [hchar, List.append_assoc]
    exact drop_length_append _ _ _ hlentake
  have htt : ((utf8Encode s).take (maxLen - 1)).take (min (utf8Encode s).length (maxLen - 1)) =
      (utf8Encode s).take (min (utf8Encode s).length (maxLen - 1)) := by
    rw [List.take_take]
    congr 1
    omega
  have hzN : ∀ b ∈ (utf8Encode s).take (min (utf8Encode s).length (maxLen - 1)),
      ¬ b = 0 := by
    intro b hbmem h0
    subst h0
    rw [← htt] at hbmem
    exact hz (List.take_subset _ _ hbmem)
  have hscan : readCString (writeCString mem ptr s maxLen).1 ptr =
      utf8Decode ((utf8Encode s).take (min (utf8Encode s).length (maxLen - 1))) := by
    rw [readCString, hdropPtr, takeUntilZero_append _ _ hzN]
  constructor
  · intro hlong
    have hminEq : min (utf8Encode s).length (maxLen - 1) = maxLen - 1 := by omega
    refine ⟨?_, by rw [hscan, hminEq]⟩
    have hgen : ∀ A D : List Nat, A.length = maxLen - 1 →
        (A ++ 0 :: D).take maxLen = A ++ [0] := by
      intro A D hA
      rw [show maxLen = A.length + 1 from by omega, List.take_append]
      rfl
    rw [hdropPtr, hminEq]
    exact hgen _ _ (by rw [List.length_take]; omega)
  · intro hfit
    have hminEq : min (utf8Encode s).length (maxLen - 1) = (utf8Encode s).length := by
      omega
    rw [hscan, hminEq, List.take_length, utf8Decode_utf8Encode]

/-- Witness for C4 (amended): the two-byte text `"ab"` written into a 3-byte
window at `ptr = 1` reads back as `"ab"`, and the one-character overlong case
`"ab"` into a 2-byte window reads back as the decode of its first byte. -/
theorem readCString_writeCString_roundtrip_witness :
    readCString ((writeCString [7, 7, 7, 7, 7] 1 [Char.ofNat 97, Char.ofNat 98] 4).1) 1 =
      [Char.ofNat 97, Char.ofNat 98] ∧
    readCString ((writeCString [7, 7, 7, 7, 7] 1 [Char.ofNat 97, Char.ofNat 98] 2).1) 1 =
      utf8Decode ((utf8Encode [Char.ofNat 97, Char.ofNat 98]).take (2 - 1)) :=
  ⟨(readCString_writeCString_roundtrip [7, 7, 7, 7, 7] 1 [Char.ofNat 97, Char.ofNat 98] 4
      (by decide) (by decide) (by decide)).2 (by decide),
   ((readCString_writeCString_roundtrip [7, 7, 7, 7, 7] 1 [Char.ofNat 97, Char.ofNat 98] 2
      (by decide) (by decide) (by decide)).1 (by decide)).2⟩

/-- C8: heap allocation after reset is deterministic: whatever the previous
cursor values, two runs that call `wasm_reset_heap` and then perform the same
sequence of `wasm_alloc` sizes obtain identical results (offsets and nulls)
from every corresponding call, because the cursor is the allocator's only
state and reset forces it to 0. -/
theorem alloc_deterministic_after_reset (o1 o2 : Int) (sizes : List Int) :
    allocRun (wasm_reset_heap o1) sizes = allocRun (wasm_reset_heap o2) sizes := rfl

/-- C9 counterexample: `wasm_alloc` takes a signed `int`, and a negative size
breaks monotonicity: from a freshly reset cursor, `wasm_alloc(-1)` succeeds
(returns `&heap[0]`) and sets `heap_offset` to `-1`, strictly below its
initial value, so the cursor is not non-decreasing and the "block" lies
outside the heap. -/
theorem wasm_alloc_negative_size_decreases_cursor :
    (wasm_alloc 0 (-1)).1 = -1 ∧ (wasm_alloc 0 (-1)).2 = some 0 ∧
    (wasm_alloc 0 (-1)).1 < heap_offset_init := by
  decide

/-- C9 (amended): for nonnegative sizes that do not overflow the 32-bit
cursor arithmetic, the cursor starts at 0, `wasm_reset_heap` sets it to 0,
a successful `wasm_alloc(size)` advances it by exactly `size` to a value
still within the 131072-byte heap (returning the old cursor as the block's
offset, so the block `[off, off + size)` lies inside the heap), a failing
call returns the null pointer and leaves the cursor unchanged, and the
cursor never exceeds the heap size. -/
theorem wasm_alloc_cursor_invariant (off size : Int) (h0 : 0 ≤ off)
    (h1 : off ≤ HEAP_SIZE) (hs : 0 ≤ size) (hov : off + size < 2 ^ 31) :
    heap_offset_init = 0 ∧
    wasm_reset_heap off = 0 ∧
    off ≤ (wasm_alloc off size).1 ∧
    0 ≤ (wasm_alloc off size).1 ∧
    (wasm_alloc off size).1 ≤ HEAP_SIZE ∧
    (off + size ≤ HEAP_SIZE →
      (wasm_alloc off size).1 = off + size ∧ (wasm_alloc off size).2 = some off ∧
      off + size ≤ HEAP_SIZE) ∧
    (HEAP_SIZE < off + size →
      (wasm_alloc off size).1 = off ∧ (wasm_alloc off size).2 = none) := by
  have hw : wrap32 (off + size) = off + size := by
    rw [wrap32]
    omega
  have hH : HEAP_SIZE = 131072 := rfl
  rw [wasm_alloc, hw]
  by_cases hc : HEAP_SIZE < off + size
  · rw [if_pos hc]
    refine ⟨rfl, rfl, by simp, by simp [h0], by simp [h1], ?_, fun _ => ⟨rfl, rfl⟩⟩
    intro hle
    omega
  · rw [if_neg hc]
    refine ⟨rfl, rfl, by simp; omega, by simp; omega, by simp; omega, ?_, ?_⟩
    · intro hle
      exact ⟨rfl, rfl, hle⟩
    · intro hgt
      omega

/-- Witness for C9 (amended): a 100-byte allocation from a reset cursor
succeeds at offset 0 and advances the cursor to 100. -/
theorem wasm_alloc_cursor_invariant_witness :
    (wasm_alloc 0 100).1 = 0 + 100 ∧ (wasm_alloc 0 100).2 = some 0 ∧
    (0 : Int) + 100 ≤ HEAP_SIZE :=
  (wasm_alloc_cursor_invariant 0 100 (by decide) (by decide) (by decide)
    (by decide)).2.2.2.2.2.1 (by decide)

end ClaimTheorems

end NerdCMS
